import Mathlib

/-!
Trial driver of the mad_2007 model (models/mad_2007/simulator.cc).

Shallow embedding of `main`: the simulation loop (clock, moving average of the
spike count, progress report, trailing-window spike recording) and the weight
analysis block (download of weights and row lengths, row-by-row binary dump).

Time is exact rational arithmetic.  Buffer indices are natural numbers: the
declaration of `CEE` (and so the integer type of `maxRowLength`) lies outside
the source file, and the index `i * CEE.maxRowLength` is computed without
wrap-around in this model.
-/

namespace Mad2007

/-! ## Parameters -/

/-- Values of the namespace Parameters (parameters.h is not part of the source
file): taken as parameters of the model. -/
structure Parameters where
  durationMs : ℚ
  timestep : ℚ
  numExcitatory : ℕ

/-- The two numeric literals of the simulation loop: the smoothing constant
`alpha` and the length of the recorded trailing window. -/
structure Policy where
  alpha : ℚ
  windowLengthMs : ℚ

/-- The literals as written in main: alpha = 0.001, window = 50.0 * 1000.0. -/
def referencePolicy : Policy := ⟨1 / 1000, 50 * 1000⟩

/-! ## State of the simulation loop -/

/-- Globals read and written by the simulation loop, the local
`averageSpikes`, and the observable effects of one run: the number of calls
of the step function, the arguments of the calls `spikes.record(t)` in order,
and the two numbers of every progress report. -/
structure DriverState where
  t : ℚ
  iT : ℕ
  spikeCount_E : ℕ
  averageSpikes : ℚ
  stepCalls : ℕ
  recorded : List ℚ
  printed : List (ℚ × ℚ)

/-- State at loop entry: clock at zero, `averageSpikes = 0.0`, nothing
recorded or printed yet. -/
def initialState : DriverState :=
  { t := 0, iT := 0, spikeCount_E := 0, averageSpikes := 0, stepCalls := 0,
    recorded := [], printed := [] }

/-- Modelled from the spec: the generated step function (stepTimeGPU followed
by pullECurrentSpikesFromDevice, or stepTimeCPU), which is not part of the
source file.  It advances `iT` by one and `t` by exactly one timestep and
leaves the spike count of the tick in `spikeCount_E`; `spikes k` is the number
of excitatory neurons the backend reports for the step taken at tick counter
`k`. -/
def stepTime (prm : Parameters) (spikes : ℕ → ℕ) (s : DriverState) : DriverState :=
  { s with t := s.t + prm.timestep, iT := s.iT + 1, spikeCount_E := spikes s.iT,
           stepCalls := s.stepCalls + 1 }

/-- The assignment
`averageSpikes = (alpha * (double)spikeCount_E) + ((1.0 - alpha) * averageSpikes)`. -/
def updateAverage (alpha : ℚ) (spikeCount : ℕ) (averageSpikes : ℚ) : ℚ :=
  alpha * (spikeCount : ℚ) + (1 - alpha) * averageSpikes

/-- The progress report `if((iT % 1000) == 0)`: percentage of the trial and
moving average spike rate in Hz. -/
def reportProgress (prm : Parameters) (s : DriverState) : DriverState :=
  if s.iT % 1000 = 0 then
    { s with printed := s.printed ++
        [(s.t / prm.durationMs * 100,
          s.averageSpikes / (prm.numExcitatory : ℚ) / (prm.timestep / 1000))] }
  else s

/-- The test `t > (Parameters::durationMs - (50.0 * 1000.0))` guarding
`spikes.record(t)`. -/
def inRecordWindow (prm : Parameters) (pol : Policy) (t : ℚ) : Bool :=
  decide (t > prm.durationMs - pol.windowLengthMs)

/-- The conditional call `spikes.record(t)`. -/
def recordSpikes (prm : Parameters) (pol : Policy) (s : DriverState) : DriverState :=
  if inRecordWindow prm pol s.t then { s with recorded := s.recorded ++ [s.t] } else s

/-- One iteration of the while loop: step, average update, progress report,
conditional record. -/
def loopBody (prm : Parameters) (pol : Policy) (spikes : ℕ → ℕ) (s : DriverState) :
    DriverState :=
  let s1 := stepTime prm spikes s
  let s2 := { s1 with
    averageSpikes := updateAverage pol.alpha s1.spikeCount_E s1.averageSpikes }
  let s3 := reportProgress prm s2
  recordSpikes prm pol s3

/-- The loop `while(t < Parameters::durationMs) { ... }`, with a bound on the
number of iterations: `none` when the bound is reached before the loop
exits. -/
def driverLoop (prm : Parameters) (pol : Policy) (spikes : ℕ → ℕ) :
    ℕ → DriverState → Option DriverState
  | fuel, s =>
    if s.t < prm.durationMs then
      match fuel with
      | 0 => none
      | fuel + 1 => driverLoop prm pol spikes fuel (loopBody prm pol spikes s)
    else some s

/-- State after `n` iterations of the loop body from loop entry. -/
def stateAfter (prm : Parameters) (pol : Policy) (spikes : ℕ → ℕ) (n : ℕ) : DriverState :=
  (loopBody prm pol spikes)^[n] initialState

/-- Number of calls `spikes.record(t)` made by the iteration started in `s`. -/
def recordCalls (prm : Parameters) (pol : Policy) (spikes : ℕ → ℕ) (s : DriverState) : ℕ :=
  (loopBody prm pol spikes s).recorded.length - s.recorded.length

/-- A backend reporting the same spike count on every tick. -/
def constantSpikes (c : ℕ) : ℕ → ℕ := fun _ => c

/-- A backend reporting the spike counts 0, 100, 0, 100, ... -/
def squareWaveSpikes : ℕ → ℕ := fun k => if k % 2 = 0 then 0 else 100

/-! ## Weight analysis block -/

/-- Reading the scalars at the given element indices of a buffer, in order;
`none` when an index lies outside the buffer. -/
def readScalars {α : Type} (gEE : List α) : List ℕ → Option (List α)
  | [] => some []
  | p :: ps =>
    match gEE[p]?, readScalars gEE ps with
    | some v, some vs => some (v :: vs)
    | _, _ => none

/-- Element indices covered by a block of `count` scalars starting at element
`start`: the region `weights.write(&gEE[start], sizeof(scalar) * count)`
reads. -/
def blockIndices (start count : ℕ) : List ℕ :=
  (List.range count).map (fun j => start + j)

/-- The call `weights.write(reinterpret_cast<char*>(&gEE[start]),
sizeof(scalar) * count)`: the scalars appended to the file. -/
def writeBlock {α : Type} (gEE : List α) (start count : ℕ) : Option (List α) :=
  readScalars gEE (blockIndices start count)

/-- Body of the weight loop for row `i`, with `file` the scalars written so
far: `weights.write(&gEE[i * CEE.maxRowLength], sizeof(scalar) * CEE.rowLength[i])`. -/
def writeRow {α : Type} (maxRowLength : ℕ) (rowLength : List ℕ) (gEE : List α)
    (file : List α) (i : ℕ) : Option (List α) :=
  match rowLength[i]? with
  | none => none
  | some count =>
    match writeBlock gEE (i * maxRowLength) count with
    | none => none
    | some block => some (file ++ block)

/-- The loop
`for(unsigned int i = 0; i < Parameters::numExcitatory; i++)
   weights.write(&gEE[i * CEE.maxRowLength], sizeof(scalar) * CEE.rowLength[i])`:
the content of weights.bin as a stream of scalars; `none` when `rowLength[i]`
or a weight is read outside its array. -/
def weightsLoop {α : Type} (numExcitatory maxRowLength : ℕ) (rowLength : List ℕ)
    (gEE : List α) : Option (List α) :=
  (List.range numExcitatory).foldlM (writeRow maxRowLength rowLength gEE) []

/-- Buffer indices read by iteration `i` of the loop. -/
def rowIndices (maxRowLength : ℕ) (rowLength : List ℕ) (i : ℕ) : List ℕ :=
  blockIndices (i * maxRowLength) (rowLength.getD i 0)

/-- Buffer indices read by the whole loop, in the order they are read. -/
def snapshotIndices (numExcitatory maxRowLength : ℕ) (rowLength : List ℕ) : List ℕ :=
  (List.range numExcitatory).flatMap (rowIndices maxRowLength rowLength)

/-- The real entries of row `i` as the specification words them: the buffer
entries at positions `i * maxRowLength + j` for `j < rowLength[i]`. -/
def rowEntries {α : Type} (maxRowLength : ℕ) (rowLength : List ℕ) (gEE : List α) (i : ℕ) :
    List α :=
  (List.range (rowLength.getD i 0)).filterMap fun j => gEE[i * maxRowLength + j]?

/-- The snapshot stream as the specification words it: for i = 0 .. n-1 in
increasing order, the real entries of row `i`, concatenated. -/
def snapshotSpec {α : Type} (n maxRowLength : ℕ) (rowLength : List ℕ) (gEE : List α) :
    List α :=
  (List.range n).flatMap (rowEntries maxRowLength rowLength gEE)

/-- Reconstruction of the rows from the stream, as the specification words it:
consecutive chunks of the sizes given by the row-length array. -/
def splitChunks {α : Type} : List ℕ → List α → List (List α)
  | [], _ => []
  | k :: ks, stream => stream.take k :: splitChunks ks (stream.drop k)

/-- Host arrays (`gEE`, `CEE.rowLength`, `CEE.maxRowLength`) and device arrays
(`d_gEE`, `d_rowLengthEE`) the weight analysis block works on. -/
structure WeightMemory (α : Type) where
  gEE : List α
  rowLength : List ℕ
  maxRowLength : ℕ
  d_gEE : List α
  d_rowLengthEE : List ℕ

/-- Modelled from the spec: pullEEStateFromDevice (generated code, not part
of the source file), the bulk transfer of the full weight array from
backend-resident memory to the host array. -/
def pullEEStateFromDevice {α : Type} (m : WeightMemory α) : WeightMemory α :=
  { m with gEE := m.d_gEE }

/-- The call `cudaMemcpy(CEE.rowLength, d_rowLengthEE,
numExcitatory * sizeof(unsigned int), cudaMemcpyDeviceToHost)`: the first
`numExcitatory` device row lengths overwrite the first `numExcitatory`
entries of the host array; `none` when either array is shorter. -/
def downloadRowLengths {α : Type} (numExcitatory : ℕ) (m : WeightMemory α) :
    Option (WeightMemory α) :=
  if numExcitatory ≤ m.d_rowLengthEE.length ∧ numExcitatory ≤ m.rowLength.length then
    some { m with
      rowLength := m.d_rowLengthEE.take numExcitatory ++ m.rowLength.drop numExcitatory }
  else none

/-- The weight analysis block: download weights, download row lengths, write
the rows.  Returns the memory afterwards and the content of weights.bin. -/
def weightAnalysis {α : Type} (numExcitatory : ℕ) (m : WeightMemory α) :
    Option (WeightMemory α × List α) :=
  match downloadRowLengths numExcitatory (pullEEStateFromDevice m) with
  | none => none
  | some m2 =>
    match weightsLoop numExcitatory m2.maxRowLength m2.rowLength m2.gEE with
    | none => none
    | some file => some (m2, file)

/-! ## The simulation loop: auxiliary facts -/

section Driver

variable (prm : Parameters) (pol : Policy) (spikes : ℕ → ℕ)

@[simp] theorem reportProgress_t (s : DriverState) : (reportProgress prm s).t = s.t := by
  unfold reportProgress; split <;> rfl

@[simp] theorem reportProgress_iT (s : DriverState) : (reportProgress prm s).iT = s.iT := by
  unfold reportProgress; split <;> rfl

@[simp] theorem reportProgress_stepCalls (s : DriverState) :
    (reportProgress prm s).stepCalls = s.stepCalls := by
  unfold reportProgress; split <;> rfl

@[simp] theorem reportProgress_averageSpikes (s : DriverState) :
    (reportProgress prm s).averageSpikes = s.averageSpikes := by
  unfold reportProgress; split <;> rfl

@[simp] theorem reportProgress_recorded (s : DriverState) :
    (reportProgress prm s).recorded = s.recorded := by
  unfold reportProgress; split <;> rfl

@[simp] theorem recordSpikes_t (s : DriverState) : (recordSpikes prm pol s).t = s.t := by
  unfold recordSpikes; split <;> rfl

@[simp] theorem recordSpikes_iT (s : DriverState) : (recordSpikes prm pol s).iT = s.iT := by
  unfold recordSpikes; split <;> rfl

@[simp] theorem recordSpikes_stepCalls (s : DriverState) :
    (recordSpikes prm pol s).stepCalls = s.stepCalls := by
  unfold recordSpikes; split <;> rfl

@[simp] theorem recordSpikes_averageSpikes (s : DriverState) :
    (recordSpikes prm pol s).averageSpikes = s.averageSpikes := by
  unfold recordSpikes; split <;> rfl

theorem recordSpikes_recorded (s : DriverState) :
    (recordSpikes prm pol s).recorded =
      s.recorded ++ (if s.t > prm.durationMs - pol.windowLengthMs then [s.t] else []) := by
  unfold recordSpikes inRecordWindow
  by_cases h : s.t > prm.durationMs - pol.windowLengthMs <;> simp [h]

theorem loopBody_t (s : DriverState) :
    (loopBody prm pol spikes s).t = s.t + prm.timestep := by
  simp [loopBody, stepTime]

theorem loopBody_iT (s : DriverState) : (loopBody prm pol spikes s).iT = s.iT + 1 := by
  simp [loopBody, stepTime]

theorem loopBody_stepCalls (s : DriverState) :
    (loopBody prm pol spikes s).stepCalls = s.stepCalls + 1 := by
  simp [loopBody, stepTime]

theorem loopBody_averageSpikes (s : DriverState) :
    (loopBody prm pol spikes s).averageSpikes =
      updateAverage pol.alpha (spikes s.iT) s.averageSpikes := by
  simp [loopBody, stepTime]

theorem loopBody_recorded (s : DriverState) :
    (loopBody prm pol spikes s).recorded =
      s.recorded ++ (if s.t + prm.timestep > prm.durationMs - pol.windowLengthMs
        then [s.t + prm.timestep] else []) := by
  simp [loopBody, recordSpikes_recorded, stepTime]

theorem stateAfter_zero : stateAfter prm pol spikes 0 = initialState := rfl

theorem stateAfter_succ (n : ℕ) :
    stateAfter prm pol spikes (n + 1) = loopBody prm pol spikes (stateAfter prm pol spikes n) := by
  unfold stateAfter
  exact Function.iterate_succ_apply' _ _ _

theorem stateAfter_iT (n : ℕ) : (stateAfter prm pol spikes n).iT = n := by
  induction n with
  | zero => rfl
  | succ n ih => rw [stateAfter_succ, loopBody_iT, ih]

theorem stateAfter_stepCalls (n : ℕ) : (stateAfter prm pol spikes n).stepCalls = n := by
  induction n with
  | zero => rfl
  | succ n ih => rw [stateAfter_succ, loopBody_stepCalls, ih]

theorem stateAfter_t (n : ℕ) : (stateAfter prm pol spikes n).t = (n : ℚ) * prm.timestep := by
  induction n with
  | zero => simp [stateAfter_zero, initialState]
  | succ n ih => rw [stateAfter_succ, loopBody_t, ih]; push_cast; ring

theorem stateAfter_averageSpikes_succ (n : ℕ) :
    (stateAfter prm pol spikes (n + 1)).averageSpikes =
      updateAverage pol.alpha (spikes n) (stateAfter prm pol spikes n).averageSpikes := by
  rw [stateAfter_succ, loopBody_averageSpikes, stateAfter_iT]

theorem stateAfter_recorded (n : ℕ) :
    (stateAfter prm pol spikes n).recorded =
      ((List.range n).map (fun k : ℕ => ((k : ℚ) + 1) * prm.timestep)).filter
        (fun t => decide (t > prm.durationMs - pol.windowLengthMs)) := by
  induction n with
  | zero => rfl
  | succ n ih =>
    rw [stateAfter_succ, loopBody_recorded, ih, stateAfter_t, List.range_succ, List.map_append,
      List.filter_append]
    have e : (n : ℚ) * prm.timestep + prm.timestep = ((n : ℚ) + 1) * prm.timestep := by ring
    rw [e]
    by_cases h : ((n : ℚ) + 1) * prm.timestep > prm.durationMs - pol.windowLengthMs <;>
      simp [h]

/-- The loop started in the state reached after `k` iterations runs on to the
state after `N` iterations, when the guard holds at every tick before `N` and
fails at tick `N`. -/
theorem driverLoop_from (N : ℕ)
    (hlt : ∀ j : ℕ, j < N → (j : ℚ) * prm.timestep < prm.durationMs)
    (hge : prm.durationMs ≤ (N : ℚ) * prm.timestep) :
    ∀ m k : ℕ, k + m = N → ∀ fuel : ℕ, m ≤ fuel →
      driverLoop prm pol spikes fuel (stateAfter prm pol spikes k)
        = some (stateAfter prm pol spikes N) := by
  intro m
  induction m with
  | zero =>
    intro k hk fuel _
    have hk' : k = N := by omega
    subst hk'
    unfold driverLoop
    rw [if_neg]
    rw [stateAfter_t]
    exact not_lt.mpr hge
  | succ m ih =>
    intro k hk fuel hfuel
    obtain ⟨f, rfl⟩ : ∃ f, fuel = f + 1 := ⟨fuel - 1, by omega⟩
    unfold driverLoop
    rw [if_pos]
    · simp only
      rw [← stateAfter_succ]
      exact ih (k + 1) (by omega) f (by omega)
    · rw [stateAfter_t]
      exact hlt k (by omega)

/-- With too little fuel the bounded loop does not return. -/
theorem driverLoop_short (N : ℕ)
    (hlt : ∀ j : ℕ, j < N → (j : ℚ) * prm.timestep < prm.durationMs) :
    ∀ fuel k : ℕ, k + fuel < N →
      driverLoop prm pol spikes fuel (stateAfter prm pol spikes k) = none := by
  intro fuel
  induction fuel with
  | zero =>
    intro k hk
    unfold driverLoop
    rw [if_pos]
    rw [stateAfter_t]
    exact hlt k (by omega)
  | succ f ih =>
    intro k hk
    unfold driverLoop
    rw [if_pos]
    · simp only
      rw [← stateAfter_succ]
      exact ih (k + 1) (by omega)
    · rw [stateAfter_t]
      exact hlt k (by omega)

theorem lt_ceil_ticks (h : 0 < prm.timestep) (j : ℕ)
    (hj : j < ⌈prm.durationMs / prm.timestep⌉₊) : (j : ℚ) * prm.timestep < prm.durationMs := by
  have := Nat.lt_ceil.mp hj
  exact (lt_div_iff₀ h).mp this

theorem ceil_ticks_ge (h : 0 < prm.timestep) :
    prm.durationMs ≤ ((⌈prm.durationMs / prm.timestep⌉₊ : ℕ) : ℚ) * prm.timestep := by
  have := Nat.le_ceil (prm.durationMs / prm.timestep)
  exact (div_le_iff₀ h).mp this

/-- Every state the bounded loop returns is the state after some number of
iterations. -/
theorem driverLoop_some_stateAfter :
    ∀ fuel k : ℕ, ∀ s : DriverState,
      driverLoop prm pol spikes fuel (stateAfter prm pol spikes k) = some s →
        ∃ n : ℕ, s = stateAfter prm pol spikes n := by
  intro fuel
  induction fuel with
  | zero =>
    intro k s h
    unfold driverLoop at h
    split at h
    · simp at h
    · exact ⟨k, (Option.some.inj h).symm⟩
  | succ f ih =>
    intro k s h
    unfold driverLoop at h
    split at h
    · simp only at h
      rw [← stateAfter_succ] at h
      exact ih (k + 1) s h
    · exact ⟨k, (Option.some.inj h).symm⟩

/-- Ticks recorded in a trial of `b` ticks with a window of `a ≤ b` ticks. -/
theorem recorded_window (a b : ℕ) (hdt : 0 < prm.timestep) (hab : a ≤ b)
    (hW : pol.windowLengthMs = (a : ℚ) * prm.timestep)
    (hD : prm.durationMs = (b : ℚ) * prm.timestep) :
    (stateAfter prm pol spikes b).recorded =
      (List.range a).map
        (fun k : ℕ => prm.durationMs - pol.windowLengthMs + ((k : ℚ) + 1) * prm.timestep) := by
  rw [stateAfter_recorded]
  obtain ⟨d, rfl⟩ : ∃ d, b = d + a := ⟨b - a, by omega⟩
  have hthr : prm.durationMs - pol.windowLengthMs = (d : ℚ) * prm.timestep := by
    rw [hW, hD]; push_cast; ring
  rw [hthr, List.range_add, List.map_append, List.filter_append]
  have h1 : ((List.range d).map (fun k : ℕ => ((k : ℚ) + 1) * prm.timestep)).filter
      (fun t => decide (t > (d : ℚ) * prm.timestep)) = [] := by
    rw [List.filter_eq_nil_iff]
    intro t ht
    rw [List.mem_map] at ht
    obtain ⟨k, hk, rfl⟩ := ht
    rw [List.mem_range] at hk
    have hk' : ((k : ℚ) + 1) ≤ (d : ℚ) := by exact_mod_cast hk
    have := mul_le_mul_of_nonneg_right hk' hdt.le
    simpa using this
  have h2 : ((List.map (fun x => d + x) (List.range a)).map
      (fun k : ℕ => ((k : ℚ) + 1) * prm.timestep)).filter
      (fun t => decide (t > (d : ℚ) * prm.timestep)) =
      (List.range a).map (fun k : ℕ => (d : ℚ) * prm.timestep + ((k : ℚ) + 1) * prm.timestep) := by
    rw [List.map_map, List.filter_eq_self.mpr]
    · apply List.map_congr_left
      intro k _
      simp only [Function.comp_apply]
      push_cast
      ring
    · intro t ht
      rw [List.mem_map] at ht
      obtain ⟨k, _, rfl⟩ := ht
      simp only [Function.comp_apply, gt_iff_lt, decide_eq_true_eq]
      have hk' : (d : ℚ) < (((d + k : ℕ) : ℚ) + 1) := by push_cast; linarith [(Nat.cast_nonneg k : (0 : ℚ) ≤ k)]
      exact mul_lt_mul_of_pos_right hk' hdt
  rw [h1, h2, List.nil_append]

/-- Gap between a constant spike count and the moving average. -/
theorem average_gap_constant (c n : ℕ) :
    (c : ℚ) - (stateAfter prm pol (constantSpikes c) n).averageSpikes
      = (c : ℚ) * (1 - pol.alpha) ^ n := by
  induction n with
  | zero => simp [stateAfter_zero, initialState]
  | succ n ih =>
    rw [stateAfter_averageSpikes_succ, pow_succ, ← mul_assoc, ← ih]
    unfold updateAverage constantSpikes
    ring

/-- Closed form of the moving average under the square wave, at even and odd
ticks. -/
theorem average_square_wave (k : ℕ) :
    (stateAfter prm referencePolicy squareWaveSpikes (2 * k)).averageSpikes
        = 100000 / 1999 * (1 - (999 / 1000 : ℚ) ^ (2 * k)) ∧
    (stateAfter prm referencePolicy squareWaveSpikes (2 * k + 1)).averageSpikes
        = 99900 / 1999 * (1 - (999 / 1000 : ℚ) ^ (2 * k)) := by
  induction k with
  | zero =>
    constructor
    · simp [stateAfter_zero, initialState]
    · rw [stateAfter_averageSpikes_succ]
      simp [stateAfter_zero, initialState, updateAverage, squareWaveSpikes]
  | succ k ih =>
    have e1 : (stateAfter prm referencePolicy squareWaveSpikes (2 * (k + 1))).averageSpikes
        = 100000 / 1999 * (1 - (999 / 1000 : ℚ) ^ (2 * (k + 1))) := by
      have : 2 * (k + 1) = (2 * k + 1) + 1 := by ring
      rw [this, stateAfter_averageSpikes_succ, ih.2]
      have hs : squareWaveSpikes (2 * k + 1) = 100 := by
        unfold squareWaveSpikes
        rw [if_neg (by omega)]
      rw [hs]
      unfold updateAverage referencePolicy
      simp only
      rw [pow_succ, pow_succ]
      push_cast
      ring
    refine ⟨e1, ?_⟩
    have : 2 * (k + 1) + 1 = (2 * (k + 1)) + 1 := rfl
    rw [stateAfter_averageSpikes_succ, e1]
    have hs : squareWaveSpikes (2 * (k + 1)) = 0 := by
      unfold squareWaveSpikes
      rw [if_pos (by omega)]
    rw [hs]
    unfold updateAverage referencePolicy
    simp only
    push_cast
    ring

end Driver

/-! ## The simulation loop: claims -/

/-- C3 (as stated, refuted): with durationMs = 50001, timestep = 1 and the
50 000 ms window, the first tick tests a clock value equal to the threshold
durationMs - windowLengthMs, and `record` is not invoked on it. -/
theorem C3_no_record_at_threshold :
    (stepTime ⟨50001, 1, 1⟩ (constantSpikes 0) initialState).t
        = (⟨50001, 1, 1⟩ : Parameters).durationMs - referencePolicy.windowLengthMs ∧
    recordCalls ⟨50001, 1, 1⟩ referencePolicy (constantSpikes 0) initialState = 0 := by
  constructor
  · norm_num [stepTime, initialState, referencePolicy]
  · unfold recordCalls
    rw [loopBody_recorded]
    norm_num [initialState, referencePolicy]

/-- C3 (amended): on every iteration of the driver loop, `record(t)` is
invoked exactly once when the clock value tested on that tick (the value after
the step) is strictly greater than durationMs - windowLengthMs, with that
clock value as argument, and is not invoked when the tested value is at or
before the threshold. -/
theorem C3_record_iff_after_threshold (prm : Parameters) (pol : Policy) (spikes : ℕ → ℕ)
    (s : DriverState) :
    (loopBody prm pol spikes s).recorded =
        s.recorded ++
          (if (stepTime prm spikes s).t > prm.durationMs - pol.windowLengthMs
            then [(stepTime prm spikes s).t] else []) ∧
    (recordCalls prm pol spikes s = 1 ↔
        (stepTime prm spikes s).t > prm.durationMs - pol.windowLengthMs) ∧
    (recordCalls prm pol spikes s = 0 ↔
        (stepTime prm spikes s).t ≤ prm.durationMs - pol.windowLengthMs) := by
  have ht : (stepTime prm spikes s).t = s.t + prm.timestep := rfl
  have hrec := loopBody_recorded prm pol spikes s
  refine ⟨by rw [ht]; exact hrec, ?_, ?_⟩
  · unfold recordCalls
    rw [hrec, ht]
    by_cases h : s.t + prm.timestep > prm.durationMs - pol.windowLengthMs <;> simp [h]
  · unfold recordCalls
    rw [hrec, ht]
    by_cases h : s.t + prm.timestep > prm.durationMs - pol.windowLengthMs
    · simp [h]
    · simp [h, not_lt.mp h]

/-- C4: for every timestep > 0 and every window <= duration that are both
whole multiples of the timestep (window = a ticks, duration = b ticks), the
driver loop started at t = 0 returns, and `record` has been invoked on exactly
window / timestep ticks: the a ticks whose tested clock values are
duration - window + (k+1) * timestep, k < a. -/
theorem C4_recorded_tick_count (prm : Parameters) (pol : Policy) (spikes : ℕ → ℕ)
    (a b fuel : ℕ) (hdt : 0 < prm.timestep)
    (hW : pol.windowLengthMs = (a : ℚ) * prm.timestep)
    (hD : prm.durationMs = (b : ℚ) * prm.timestep)
    (hle : pol.windowLengthMs ≤ prm.durationMs) (hfuel : b ≤ fuel) :
    ∃ s : DriverState,
      driverLoop prm pol spikes fuel initialState = some s ∧
      s.recorded.length = a ∧
      (s.recorded.length : ℚ) = pol.windowLengthMs / prm.timestep ∧
      s.recorded = (List.range a).map
        (fun k : ℕ => prm.durationMs - pol.windowLengthMs + ((k : ℚ) + 1) * prm.timestep) := by
  have hab : a ≤ b := by
    rw [hW, hD] at hle
    exact_mod_cast le_of_mul_le_mul_right hle hdt
  have hlt : ∀ j : ℕ, j < b → (j : ℚ) * prm.timestep < prm.durationMs := by
    intro j hj
    rw [hD]
    exact mul_lt_mul_of_pos_right (by exact_mod_cast hj) hdt
  have hrun := driverLoop_from prm pol spikes b hlt hD.le b 0 (by omega) fuel hfuel
  rw [stateAfter_zero] at hrun
  have hrec := recorded_window prm pol spikes a b hdt hab hW hD
  refine ⟨_, hrun, ?_, ?_, hrec⟩
  · rw [hrec]; simp
  · rw [hrec, hW]
    simp [hdt.ne']

/-- C4 (witness): duration 5000 ms, timestep 1 ms, window 2000 ms gives
exactly 2000 recorded ticks. -/
theorem C4_recorded_tick_count_witness :
    ∃ s : DriverState,
      driverLoop ⟨5000, 1, 1⟩ ⟨1 / 1000, 2000⟩ (constantSpikes 0) 5000 initialState = some s ∧
      s.recorded.length = 2000 ∧
      (s.recorded.length : ℚ) = (2000 : ℚ) / 1 ∧
      s.recorded = (List.range 2000).map
        (fun k : ℕ => (5000 : ℚ) - 2000 + ((k : ℚ) + 1) * 1) :=
  C4_recorded_tick_count ⟨5000, 1, 1⟩ ⟨1 / 1000, 2000⟩ (constantSpikes 0) 2000 5000 5000
    (by norm_num) (by norm_num) (by norm_num) (by norm_num) (le_refl _)

/-- C5: for every smoothing constant alpha with 0 < alpha <= 1 and every
constant spike count c, the average computed by the loop from 0 satisfies, for
every n, avg_n <= avg_(n+1) <= c, the gap c - avg_n equals c * (1 - alpha)^n,
and the gap tends to 0. -/
theorem C5_average_constant_input (prm : Parameters) (pol : Policy) (c : ℕ)
    (h0 : 0 < pol.alpha) (h1 : pol.alpha ≤ 1) :
    (∀ n : ℕ,
      (stateAfter prm pol (constantSpikes c) n).averageSpikes
          ≤ (stateAfter prm pol (constantSpikes c) (n + 1)).averageSpikes ∧
      (stateAfter prm pol (constantSpikes c) (n + 1)).averageSpikes ≤ (c : ℚ) ∧
      (c : ℚ) - (stateAfter prm pol (constantSpikes c) n).averageSpikes
          = (c : ℚ) * (1 - pol.alpha) ^ n) ∧
    Filter.Tendsto
      (fun n : ℕ => (c : ℚ) - (stateAfter prm pol (constantSpikes c) n).averageSpikes)
      Filter.atTop (nhds 0) := by
  have hr0 : 0 ≤ 1 - pol.alpha := by linarith
  have hr1 : 1 - pol.alpha < 1 := by linarith
  have hc : (0 : ℚ) ≤ c := Nat.cast_nonneg c
  constructor
  · intro n
    have g0 := average_gap_constant prm pol c n
    have g1 := average_gap_constant prm pol c (n + 1)
    have p0 : 0 ≤ (c : ℚ) * (1 - pol.alpha) ^ n := mul_nonneg hc (pow_nonneg hr0 n)
    have p1 : 0 ≤ (c : ℚ) * (1 - pol.alpha) ^ (n + 1) := mul_nonneg hc (pow_nonneg hr0 (n + 1))
    have hstep : (c : ℚ) * (1 - pol.alpha) ^ (n + 1) ≤ (c : ℚ) * (1 - pol.alpha) ^ n := by
      rw [pow_succ, ← mul_assoc]
      exact mul_le_of_le_one_right p0 hr1.le
    refine ⟨by linarith, by linarith, g0⟩
  · have hfun : (fun n : ℕ => (c : ℚ) - (stateAfter prm pol (constantSpikes c) n).averageSpikes)
        = fun n : ℕ => (c : ℚ) * (1 - pol.alpha) ^ n := by
      funext n
      exact average_gap_constant prm pol c n
    rw [hfun]
    have := (tendsto_pow_atTop_nhds_zero_of_lt_one hr0 hr1).const_mul (c : ℚ)
    simpa using this

/-- C5 (witness): alpha = 0.001 as in the code, constant spike count 7. -/
theorem C5_average_constant_input_witness :
    (∀ n : ℕ,
      (stateAfter ⟨1000, 1, 1⟩ referencePolicy (constantSpikes 7) n).averageSpikes
          ≤ (stateAfter ⟨1000, 1, 1⟩ referencePolicy (constantSpikes 7) (n + 1)).averageSpikes ∧
      (stateAfter ⟨1000, 1, 1⟩ referencePolicy (constantSpikes 7) (n + 1)).averageSpikes
          ≤ ((7 : ℕ) : ℚ) ∧
      ((7 : ℕ) : ℚ) - (stateAfter ⟨1000, 1, 1⟩ referencePolicy (constantSpikes 7) n).averageSpikes
          = ((7 : ℕ) : ℚ) * (1 - referencePolicy.alpha) ^ n) ∧
    Filter.Tendsto
      (fun n : ℕ => ((7 : ℕ) : ℚ) -
        (stateAfter ⟨1000, 1, 1⟩ referencePolicy (constantSpikes 7) n).averageSpikes)
      Filter.atTop (nhds 0) :=
  C5_average_constant_input ⟨1000, 1, 1⟩ referencePolicy 7
    (by norm_num [referencePolicy]) (by norm_num [referencePolicy])

/-- C6: with alpha = 0.001, starting average 0 and spike counts alternating
0, 100, 0, 100, ..., there is a tick N such that for every n >= N the average
computed by the loop is within 0.03 of 50. -/
theorem C6_average_square_wave (prm : Parameters) :
    ∃ N : ℕ, ∀ n : ℕ, N ≤ n →
      |(stateAfter prm referencePolicy squareWaveSpikes n).averageSpikes - 50| ≤ 3 / 100 := by
  have hlim := tendsto_pow_atTop_nhds_zero_of_lt_one
    (show (0 : ℚ) ≤ 999 / 1000 by norm_num) (show (999 / 1000 : ℚ) < 1 by norm_num)
  have hev := hlim.eventually (Iio_mem_nhds (show (0 : ℚ) < 1 / 100000 by norm_num))
  obtain ⟨M, hM⟩ := Filter.eventually_atTop.mp hev
  refine ⟨M + 1, ?_⟩
  intro n hn
  obtain ⟨k, hk | hk⟩ : ∃ k, n = 2 * k ∨ n = 2 * k + 1 := ⟨n / 2, by omega⟩
  · subst hk
    have hx : (999 / 1000 : ℚ) ^ (2 * k) < 1 / 100000 := hM (2 * k) (by omega)
    have hx0 : (0 : ℚ) ≤ (999 / 1000 : ℚ) ^ (2 * k) := pow_nonneg (by norm_num) _
    rw [(average_square_wave prm k).1, abs_le]
    constructor <;> linarith
  · subst hk
    have hx : (999 / 1000 : ℚ) ^ (2 * k) < 1 / 100000 := hM (2 * k) (by omega)
    have hx0 : (0 : ℚ) ≤ (999 / 1000 : ℚ) ^ (2 * k) := pow_nonneg (by norm_num) _
    rw [(average_square_wave prm k).2, abs_le]
    constructor <;> linarith

/-- C7: starting from t = 0 and iT = 0, t == iT * timestep holds after every
number of iterations of the driver loop (so before and after every
iteration) and in every state the loop returns; one iteration advances iT by
one and t by one timestep, leaving t - iT * timestep unchanged. -/
theorem C7_clock_consistency (prm : Parameters) (pol : Policy) (spikes : ℕ → ℕ) :
    (∀ n : ℕ, (stateAfter prm pol spikes n).t
        = ((stateAfter prm pol spikes n).iT : ℚ) * prm.timestep) ∧
    (∀ fuel : ℕ,
      match driverLoop prm pol spikes fuel initialState with
      | some s => s.t = (s.iT : ℚ) * prm.timestep
      | none => True) ∧
    (∀ s : DriverState,
      (loopBody prm pol spikes s).iT = s.iT + 1 ∧
      (loopBody prm pol spikes s).t = s.t + prm.timestep ∧
      (loopBody prm pol spikes s).t - ((loopBody prm pol spikes s).iT : ℚ) * prm.timestep
        = s.t - (s.iT : ℚ) * prm.timestep) := by
  have hinv : ∀ n : ℕ, (stateAfter prm pol spikes n).t
      = ((stateAfter prm pol spikes n).iT : ℚ) * prm.timestep := by
    intro n
    rw [stateAfter_t, stateAfter_iT]
  refine ⟨hinv, ?_, ?_⟩
  · intro fuel
    cases h : driverLoop prm pol spikes fuel initialState with
    | none => trivial
    | some s =>
      obtain ⟨n, rfl⟩ := driverLoop_some_stateAfter prm pol spikes fuel 0 s h
      exact hinv n
  · intro s
    refine ⟨loopBody_iT prm pol spikes s, loopBody_t prm pol spikes s, ?_⟩
    rw [loopBody_iT, loopBody_t]
    push_cast
    ring

/-- C8: for every timestep > 0 and every durationMs, the driver loop started
at t = 0 terminates after exactly N = ceil(durationMs / timestep) iterations
(it returns with any bound of at least N iterations and with no smaller one),
each iteration performs exactly one step, the guard t < durationMs holds
before each of the N iterations and fails in the exit state, whose clock value
N * timestep is the first one with t >= durationMs; N = 0 when
durationMs <= 0. -/
theorem C8_loop_terminates (prm : Parameters) (pol : Policy) (spikes : ℕ → ℕ)
    (hdt : 0 < prm.timestep) :
    (∀ fuel : ℕ, ⌈prm.durationMs / prm.timestep⌉₊ ≤ fuel →
      driverLoop prm pol spikes fuel initialState
        = some (stateAfter prm pol spikes ⌈prm.durationMs / prm.timestep⌉₊)) ∧
    (∀ fuel : ℕ, fuel < ⌈prm.durationMs / prm.timestep⌉₊ →
      driverLoop prm pol spikes fuel initialState = none) ∧
    (stateAfter prm pol spikes ⌈prm.durationMs / prm.timestep⌉₊).stepCalls
        = ⌈prm.durationMs / prm.timestep⌉₊ ∧
    (stateAfter prm pol spikes ⌈prm.durationMs / prm.timestep⌉₊).iT
        = ⌈prm.durationMs / prm.timestep⌉₊ ∧
    (∀ s : DriverState, (loopBody prm pol spikes s).stepCalls = s.stepCalls + 1) ∧
    (∀ j : ℕ, j < ⌈prm.durationMs / prm.timestep⌉₊ →
      (stateAfter prm pol spikes j).t < prm.durationMs) ∧
    prm.durationMs ≤ (stateAfter prm pol spikes ⌈prm.durationMs / prm.timestep⌉₊).t ∧
    (prm.durationMs ≤ 0 → ⌈prm.durationMs / prm.timestep⌉₊ = 0) := by
  have hlt := lt_ceil_ticks prm hdt
  have hge := ceil_ticks_ge prm hdt
  refine ⟨?_, ?_, stateAfter_stepCalls _ _ _ _, stateAfter_iT _ _ _ _,
    loopBody_stepCalls prm pol spikes, ?_, ?_, ?_⟩
  · intro fuel hfuel
    have := driverLoop_from prm pol spikes _ hlt hge _ 0 (by omega) fuel hfuel
    rwa [stateAfter_zero] at this
  · intro fuel hfuel
    have := driverLoop_short prm pol spikes _ hlt fuel 0 (by omega)
    rwa [stateAfter_zero] at this
  · intro j hj
    rw [stateAfter_t]
    exact hlt j hj
  · rw [stateAfter_t]
    exact hge
  · intro hD
    rw [Nat.ceil_eq_zero]
    exact div_nonpos_of_nonpos_of_nonneg hD hdt.le

/-- C8 (witness): durationMs = 2.5, timestep = 1: three steps. -/
theorem C8_loop_terminates_witness :
    (∀ fuel : ℕ, ⌈(5 / 2 : ℚ) / 1⌉₊ ≤ fuel →
      driverLoop ⟨5 / 2, 1, 1⟩ referencePolicy (constantSpikes 0) fuel initialState
        = some (stateAfter ⟨5 / 2, 1, 1⟩ referencePolicy (constantSpikes 0)
            ⌈(5 / 2 : ℚ) / 1⌉₊)) ∧
    (∀ fuel : ℕ, fuel < ⌈(5 / 2 : ℚ) / 1⌉₊ →
      driverLoop ⟨5 / 2, 1, 1⟩ referencePolicy (constantSpikes 0) fuel initialState = none) ∧
    (stateAfter ⟨5 / 2, 1, 1⟩ referencePolicy (constantSpikes 0) ⌈(5 / 2 : ℚ) / 1⌉₊).stepCalls
        = ⌈(5 / 2 : ℚ) / 1⌉₊ ∧
    (stateAfter ⟨5 / 2, 1, 1⟩ referencePolicy (constantSpikes 0) ⌈(5 / 2 : ℚ) / 1⌉₊).iT
        = ⌈(5 / 2 : ℚ) / 1⌉₊ ∧
    (∀ s : DriverState,
      (loopBody ⟨5 / 2, 1, 1⟩ referencePolicy (constantSpikes 0) s).stepCalls
        = s.stepCalls + 1) ∧
    (∀ j : ℕ, j < ⌈(5 / 2 : ℚ) / 1⌉₊ →
      (stateAfter ⟨5 / 2, 1, 1⟩ referencePolicy (constantSpikes 0) j).t < 5 / 2) ∧
    (5 / 2 : ℚ) ≤
      (stateAfter ⟨5 / 2, 1, 1⟩ referencePolicy (constantSpikes 0) ⌈(5 / 2 : ℚ) / 1⌉₊).t ∧
    ((5 / 2 : ℚ) ≤ 0 → ⌈(5 / 2 : ℚ) / 1⌉₊ = 0) :=
  C8_loop_terminates ⟨5 / 2, 1, 1⟩ referencePolicy (constantSpikes 0) (by norm_num)

/-! ## Weight analysis: auxiliary facts -/

section Weights

variable {α : Type}

theorem readScalars_append (gEE : List α) (xs ys : List ℕ) :
    readScalars gEE (xs ++ ys) =
      match readScalars gEE xs, readScalars gEE ys with
      | some a, some b => some (a ++ b)
      | _, _ => none := by
  induction xs with
  | nil =>
    simp only [List.nil_append, readScalars]
    cases readScalars gEE ys <;> simp
  | cons p ps ih =>
    rw [List.cons_append]
    simp only [readScalars]
    rw [ih]
    cases gEE[p]? <;> cases readScalars gEE ps <;> cases readScalars gEE ys <;> rfl

theorem readScalars_of_lt (gEE : List α) (idx : List ℕ) (h : ∀ p ∈ idx, p < gEE.length) :
    readScalars gEE idx = some (idx.filterMap fun p => gEE[p]?) := by
  induction idx with
  | nil => rfl
  | cons p ps ih =>
    have hp : p < gEE.length := h p (List.mem_cons_self _ _)
    have ih' := ih (fun q hq => h q (List.mem_cons_of_mem _ hq))
    simp only [readScalars, ih', List.getElem?_eq_getElem hp, List.filterMap_cons]

theorem readScalars_eq_none (gEE : List α) (idx : List ℕ) (p : ℕ) (hp : p ∈ idx)
    (h : gEE.length ≤ p) : readScalars gEE idx = none := by
  induction idx with
  | nil => cases hp
  | cons q qs ih =>
    rcases List.mem_cons.mp hp with rfl | hq
    · simp only [readScalars, List.getElem?_eq_none h]
    · simp only [readScalars, ih hq]
      cases gEE[q]? <;> rfl

theorem mem_blockIndices (start count p : ℕ) :
    p ∈ blockIndices start count ↔ ∃ j, j < count ∧ p = start + j := by
  unfold blockIndices
  simp only [List.mem_map, List.mem_range]
  constructor
  · rintro ⟨j, hj, rfl⟩; exact ⟨j, hj, rfl⟩
  · rintro ⟨j, hj, rfl⟩; exact ⟨j, hj, rfl⟩

theorem mem_snapshotIndices (n maxRowLength : ℕ) (rowLength : List ℕ) (p : ℕ) :
    p ∈ snapshotIndices n maxRowLength rowLength ↔
      ∃ i j, i < n ∧ j < rowLength.getD i 0 ∧ p = i * maxRowLength + j := by
  unfold snapshotIndices rowIndices
  simp only [List.mem_flatMap, List.mem_range, mem_blockIndices]
  constructor
  · rintro ⟨i, hi, j, hj, rfl⟩; exact ⟨i, j, hi, hj, rfl⟩
  · rintro ⟨i, j, hi, hj, rfl⟩; exact ⟨i, hi, j, hj, rfl⟩

/-- A row of at most `maxRowLength` entries ends before the next row starts
and inside a buffer of `n` rows. -/
theorem row_end_le (n maxRowLength i count : ℕ) (hi : i < n) (hc : count ≤ maxRowLength) :
    i * maxRowLength + count ≤ n * maxRowLength := by
  have h1 : (i + 1) * maxRowLength ≤ n * maxRowLength := Nat.mul_le_mul_right _ hi
  have h2 : (i + 1) * maxRowLength = i * maxRowLength + maxRowLength := by ring
  omega

theorem getD_le_of_forall_le (maxRowLength : ℕ) (rowLength : List ℕ)
    (hmax : ∀ k ∈ rowLength, k ≤ maxRowLength) (i : ℕ) : rowLength.getD i 0 ≤ maxRowLength := by
  rw [List.getD_eq_getElem?_getD]
  cases h : rowLength[i]? with
  | none => simp
  | some k => exact hmax k (List.getElem?_mem h)

/-- The entries the specification names for a row are the block of the buffer
that starts at the row and has the row's length. -/
theorem filterMap_range_eq_take_drop (gEE : List α) (start count : ℕ) :
    ((List.range count).filterMap fun j => gEE[start + j]?) = (gEE.drop start).take count := by
  induction count with
  | zero => simp
  | succ c ih =>
    rw [List.range_succ, List.filterMap_append, ih, List.take_succ, List.getElem?_drop]
    cases h : gEE[start + c]? <;> simp [List.filterMap_cons, h]

theorem rowEntries_eq_take_drop (maxRowLength : ℕ) (rowLength : List ℕ) (gEE : List α) (i : ℕ) :
    rowEntries maxRowLength rowLength gEE i =
      (gEE.drop (i * maxRowLength)).take (rowLength.getD i 0) :=
  filterMap_range_eq_take_drop gEE _ _

theorem writeBlock_of_le (gEE : List α) (start count : ℕ) (h : start + count ≤ gEE.length) :
    writeBlock gEE start count = some ((List.range count).filterMap fun j => gEE[start + j]?) := by
  unfold writeBlock
  rw [readScalars_of_lt]
  · unfold blockIndices
    rw [List.filterMap_map]
    rfl
  · intro p hp
    obtain ⟨j, hj, rfl⟩ := (mem_blockIndices _ _ _).mp hp
    omega

theorem weightsLoop_succ (n maxRowLength : ℕ) (rowLength : List ℕ) (gEE : List α) :
    weightsLoop (n + 1) maxRowLength rowLength gEE =
      match weightsLoop n maxRowLength rowLength gEE with
      | none => none
      | some file => writeRow maxRowLength rowLength gEE file n := by
  unfold weightsLoop
  rw [List.range_succ, List.foldlM_append]
  cases List.foldlM (writeRow maxRowLength rowLength gEE) [] (List.range n) with
  | none => rfl
  | some file =>
    simp only [Option.bind_eq_bind, Option.some_bind, List.foldlM_cons, List.foldlM_nil]
    cases writeRow maxRowLength rowLength gEE file n <;> rfl

theorem writeRow_of_lt (maxRowLength : ℕ) (rowLength : List ℕ) (gEE file : List α) (i : ℕ)
    (hi : i < rowLength.length) :
    writeRow maxRowLength rowLength gEE file i =
      match readScalars gEE (rowIndices maxRowLength rowLength i) with
      | none => none
      | some block => some (file ++ block) := by
  unfold writeRow rowIndices writeBlock
  rw [List.getD_eq_getElem?_getD, List.getElem?_eq_getElem hi]
  rfl

theorem snapshotIndices_succ (n maxRowLength : ℕ) (rowLength : List ℕ) :
    snapshotIndices (n + 1) maxRowLength rowLength =
      snapshotIndices n maxRowLength rowLength ++ rowIndices maxRowLength rowLength n := by
  unfold snapshotIndices
  rw [List.range_succ, List.flatMap_append]
  simp

theorem snapshotSpec_succ (n maxRowLength : ℕ) (rowLength : List ℕ) (gEE : List α) :
    snapshotSpec (n + 1) maxRowLength rowLength gEE =
      snapshotSpec n maxRowLength rowLength gEE ++ rowEntries maxRowLength rowLength gEE n := by
  unfold snapshotSpec
  rw [List.range_succ, List.flatMap_append]
  simp

/-- The loop reads exactly the buffer indices listed by `snapshotIndices`, in
that order. -/
theorem weightsLoop_eq_readScalars (maxRowLength : ℕ) (rowLength : List ℕ) (gEE : List α) :
    ∀ n : ℕ, n ≤ rowLength.length →
      weightsLoop n maxRowLength rowLength gEE
        = readScalars gEE (snapshotIndices n maxRowLength rowLength) := by
  intro n
  induction n with
  | zero => intro _; rfl
  | succ n ih =>
    intro hn
    have hlt : n < rowLength.length := hn
    rw [weightsLoop_succ, ih (by omega), snapshotIndices_succ, readScalars_append]
    cases readScalars gEE (snapshotIndices n maxRowLength rowLength) with
    | none => rfl
    | some file =>
      simp only [writeRow_of_lt maxRowLength rowLength gEE file n hlt]
      cases readScalars gEE (rowIndices maxRowLength rowLength n) <;> rfl

/-- When every row block lies inside the buffer the loop returns the stream
the specification describes. -/
theorem weightsLoop_eq_spec (maxRowLength : ℕ) (rowLength : List ℕ) (gEE : List α) :
    ∀ n : ℕ, n ≤ rowLength.length →
      (∀ i, i < n → i * maxRowLength + rowLength.getD i 0 ≤ gEE.length) →
      weightsLoop n maxRowLength rowLength gEE
        = some (snapshotSpec n maxRowLength rowLength gEE) := by
  intro n
  induction n with
  | zero => intro _ _; rfl
  | succ n ih =>
    intro hn hin
    have hlt : n < rowLength.length := hn
    have hd : rowLength.getD n 0 = rowLength[n] := by
      rw [List.getD_eq_getElem?_getD, List.getElem?_eq_getElem hlt]
      rfl
    have hb : n * maxRowLength + rowLength[n] ≤ gEE.length := by
      rw [← hd]; exact hin n (Nat.lt_succ_self n)
    rw [weightsLoop_succ, ih (by omega) (fun i hi => hin i (by omega)), snapshotSpec_succ]
    simp only [writeRow, List.getElem?_eq_getElem hlt, writeBlock_of_le gEE _ _ hb]
    unfold rowEntries
    rw [hd]

/-- Entry `j` of row `i` sits in the concatenation of the rows after the
entries of the rows before it. -/
theorem flatten_getElem? (L : List (List α)) :
    ∀ (i j : ℕ) (row : List α), L[i]? = some row → j < row.length →
      L.flatten[((L.take i).map List.length).sum + j]? = row[j]? := by
  induction L with
  | nil => intro i j row h; simp at h
  | cons a L ih =>
    intro i j row h hj
    cases i with
    | zero =>
      simp only [List.getElem?_cons_zero, Option.some.injEq] at h
      subst h
      simp only [List.take_zero, List.map_nil, List.sum_nil, Nat.zero_add, List.flatten_cons]
      exact List.getElem?_append_left hj
    | succ i =>
      simp only [List.getElem?_cons_succ] at h
      simp only [List.take_succ_cons, List.map_cons, List.sum_cons, List.flatten_cons]
      rw [List.getElem?_append_right (by omega)]
      have e : a.length + ((L.take i).map List.length).sum + j - a.length
          = ((L.take i).map List.length).sum + j := by omega
      rw [e]
      exact ih i j row h hj

theorem splitChunks_flatten (L : List (List α)) :
    splitChunks (L.map List.length) L.flatten = L := by
  induction L with
  | nil => rfl
  | cons a L ih =>
    simp only [List.map_cons, List.flatten_cons, splitChunks, List.take_left' rfl,
      List.drop_left' rfl, ih]

theorem map_getD_range (rowLength : List ℕ) :
    (List.range rowLength.length).map (fun i => rowLength.getD i 0) = rowLength := by
  apply List.ext_getElem?
  intro i
  by_cases hi : i < rowLength.length
  · simp [List.getElem?_map, List.getElem?_range hi, List.getElem?_eq_getElem hi]
  · have h1 : rowLength.length ≤ i := not_lt.mp hi
    rw [List.getElem?_eq_none h1, List.getElem?_eq_none]
    simpa using h1

theorem rowEntries_length (maxRowLength : ℕ) (rowLength : List ℕ) (gEE : List α) (i : ℕ)
    (h : i * maxRowLength + rowLength.getD i 0 ≤ gEE.length) :
    (rowEntries maxRowLength rowLength gEE i).length = rowLength.getD i 0 := by
  rw [rowEntries_eq_take_drop, List.length_take, List.length_drop]
  omega

theorem rowEntries_getElem? (maxRowLength : ℕ) (rowLength : List ℕ) (gEE : List α) (i j : ℕ)
    (hj : j < rowLength.getD i 0) :
    (rowEntries maxRowLength rowLength gEE i)[j]? = gEE[i * maxRowLength + j]? := by
  rw [rowEntries_eq_take_drop, List.getElem?_take, if_pos hj, List.getElem?_drop]

/-- The lengths of the rows of the specification are the row lengths. -/
theorem map_length_rowEntries (n maxRowLength : ℕ) (rowLength : List ℕ) (gEE : List α)
    (hlen : rowLength.length = n)
    (hin : ∀ i, i < n → i * maxRowLength + rowLength.getD i 0 ≤ gEE.length) :
    ((List.range n).map (rowEntries maxRowLength rowLength gEE)).map List.length = rowLength := by
  rw [List.map_map]
  have : (List.range n).map (List.length ∘ rowEntries maxRowLength rowLength gEE)
      = (List.range n).map (fun i => rowLength.getD i 0) := by
    apply List.map_congr_left
    intro i hi
    exact rowEntries_length maxRowLength rowLength gEE i (hin i (List.mem_range.mp hi))
  rw [this, ← hlen]
  exact map_getD_range rowLength

theorem snapshotSpec_eq_flatten (n maxRowLength : ℕ) (rowLength : List ℕ) (gEE : List α) :
    snapshotSpec n maxRowLength rowLength gEE
      = ((List.range n).map (rowEntries maxRowLength rowLength gEE)).flatten :=
  List.flatMap_def _ _

/-- Every row block lies inside a buffer of `n` rows when no row is longer
than `maxRowLength`. -/
theorem rows_in_bounds (n maxRowLength : ℕ) (rowLength : List ℕ)
    (hmax : ∀ k ∈ rowLength, k ≤ maxRowLength) (i : ℕ) (hi : i < n) :
    i * maxRowLength + rowLength.getD i 0 ≤ n * maxRowLength :=
  row_end_le n maxRowLength i _ hi (getD_le_of_forall_le maxRowLength rowLength hmax i)

/-- Two different (row, offset) pairs never address the same buffer entry. -/
theorem row_index_inj (maxRowLength : ℕ) (rowLength : List ℕ)
    (hmax : ∀ k ∈ rowLength, k ≤ maxRowLength) (i j i' j' : ℕ)
    (hj : j < rowLength.getD i 0) (hj' : j' < rowLength.getD i' 0)
    (h : i * maxRowLength + j = i' * maxRowLength + j') : i = i' ∧ j = j' := by
  have hc := getD_le_of_forall_le maxRowLength rowLength hmax i
  have hc' := getD_le_of_forall_le maxRowLength rowLength hmax i'
  have hii : i = i' := by
    rcases Nat.lt_trichotomy i i' with hlt | heq | hgt
    · have := row_end_le i' maxRowLength i (j + 1) hlt (by omega)
      omega
    · exact heq
    · have := row_end_le i maxRowLength i' (j' + 1) hgt (by omega)
      omega
  subst hii
  exact ⟨rfl, by omega⟩

theorem snapshotIndices_nodup (n maxRowLength : ℕ) (rowLength : List ℕ)
    (hmax : ∀ k ∈ rowLength, k ≤ maxRowLength) :
    (snapshotIndices n maxRowLength rowLength).Nodup := by
  unfold snapshotIndices
  rw [List.nodup_flatMap]
  constructor
  · intro i _
    unfold rowIndices blockIndices
    exact (List.nodup_range _).map (fun a b h => Nat.add_left_cancel h)
  · refine (List.pairwise_lt_range n).imp ?_
    intro a b hab
    simp only [Function.onFun]
    intro p hpa hpb
    unfold rowIndices at hpa hpb
    obtain ⟨j, hj, rfl⟩ := (mem_blockIndices _ _ _).mp hpa
    obtain ⟨j', hj', h⟩ := (mem_blockIndices _ _ _).mp hpb
    have := (row_index_inj maxRowLength rowLength hmax a j b j' hj hj' h).1
    omega

/-- Buffers that agree on the real entries of a row give the same row. -/
theorem rowEntries_congr (maxRowLength : ℕ) (rowLength : List ℕ) (gEE gEE' : List α) (i : ℕ)
    (h : ∀ j, j < rowLength.getD i 0 → gEE'[i * maxRowLength + j]? = gEE[i * maxRowLength + j]?) :
    rowEntries maxRowLength rowLength gEE' i = rowEntries maxRowLength rowLength gEE i := by
  unfold rowEntries
  apply List.filterMap_congr
  intro j hj
  exact h j (List.mem_range.mp hj)

theorem snapshotSpec_congr (n maxRowLength : ℕ) (rowLength : List ℕ) (gEE gEE' : List α)
    (h : ∀ i j, i < n → j < rowLength.getD i 0 →
      gEE'[i * maxRowLength + j]? = gEE[i * maxRowLength + j]?) :
    snapshotSpec n maxRowLength rowLength gEE' = snapshotSpec n maxRowLength rowLength gEE := by
  unfold snapshotSpec
  apply List.flatMap_congr
  intro i hi
  exact rowEntries_congr maxRowLength rowLength gEE gEE' i
    (fun j hj => h i j (List.mem_range.mp hi) hj)

/-- The loop uses only the first `n` entries of the row-length array. -/
theorem weightsLoop_congr_rowLength (maxRowLength : ℕ) (rowLength rowLength' : List ℕ)
    (gEE : List α) :
    ∀ n : ℕ, (∀ i, i < n → rowLength'[i]? = rowLength[i]?) →
      weightsLoop n maxRowLength rowLength' gEE = weightsLoop n maxRowLength rowLength gEE := by
  intro n
  induction n with
  | zero => intro _; rfl
  | succ n ih =>
    intro h
    rw [weightsLoop_succ, weightsLoop_succ, ih (fun i hi => h i (by omega))]
    cases weightsLoop n maxRowLength rowLength gEE with
    | none => rfl
    | some file =>
      simp only [writeRow, h n (Nat.lt_succ_self n)]

/-- The file written by the weight analysis block, in terms of the device
arrays. -/
theorem weightAnalysis_file (n : ℕ) (m : WeightMemory α) :
    (weightAnalysis n m).map Prod.snd =
      if n ≤ m.d_rowLengthEE.length ∧ n ≤ m.rowLength.length then
        weightsLoop n m.maxRowLength m.d_rowLengthEE m.d_gEE
      else none := by
  unfold weightAnalysis downloadRowLengths pullEEStateFromDevice
  by_cases h : n ≤ m.d_rowLengthEE.length ∧ n ≤ m.rowLength.length
  · simp only [h, and_self, if_true]
    have hc : weightsLoop n m.maxRowLength
        (List.take n m.d_rowLengthEE ++ List.drop n m.rowLength) m.d_gEE
        = weightsLoop n m.maxRowLength m.d_rowLengthEE m.d_gEE := by
      apply weightsLoop_congr_rowLength
      intro i hi
      rw [List.getElem?_append_left (by rw [List.length_take]; omega), List.getElem?_take,
        if_pos hi]
    rw [hc]
    cases weightsLoop n m.maxRowLength m.d_rowLengthEE m.d_gEE <;> rfl
  · simp only [h, if_false]
    rfl

/-- The memory left by the weight analysis block. -/
theorem weightAnalysis_memory (n : ℕ) (m m' : WeightMemory α) (file : List α)
    (h : weightAnalysis n m = some (m', file)) :
    n ≤ m.d_rowLengthEE.length ∧ n ≤ m.rowLength.length ∧
    m' = { m with gEE := m.d_gEE,
                  rowLength := m.d_rowLengthEE.take n ++ m.rowLength.drop n } := by
  unfold weightAnalysis downloadRowLengths pullEEStateFromDevice at h
  by_cases hc : n ≤ m.d_rowLengthEE.length ∧ n ≤ m.rowLength.length
  · simp only [hc, and_self, if_true] at h
    refine ⟨hc.1, hc.2, ?_⟩
    cases hw : weightsLoop n m.maxRowLength
        (List.take n m.d_rowLengthEE ++ List.drop n m.rowLength) m.d_gEE with
    | none => rw [hw] at h; cases h
    | some f =>
      rw [hw] at h
      simp only [Option.some.injEq, Prod.mk.injEq] at h
      exact h.1.symm
  · simp only [hc, if_false] at h
    cases h

/-- Running the weight analysis block again on the memory it left gives the
same memory and the same file. -/
theorem weightAnalysis_again (n : ℕ) (m m' : WeightMemory α) (file : List α)
    (h : weightAnalysis n m = some (m', file)) :
    weightAnalysis n m' = some (m', file) := by
  obtain ⟨h1, h2, rfl⟩ := weightAnalysis_memory n m m' file h
  have hl : (List.take n m.d_rowLengthEE).length = n := by
    rw [List.length_take]; omega
  have hfix : List.take n m.d_rowLengthEE ++
      List.drop n (List.take n m.d_rowLengthEE ++ List.drop n m.rowLength)
      = List.take n m.d_rowLengthEE ++ List.drop n m.rowLength := by
    rw [List.drop_left' hl]
  have hlen : n ≤ (List.take n m.d_rowLengthEE ++ List.drop n m.rowLength).length := by
    rw [List.length_append, hl]; omega
  unfold weightAnalysis downloadRowLengths pullEEStateFromDevice at h ⊢
  simp only [h1, h2, hlen, and_self, if_true, hfix] at h ⊢
  exact h

end Weights

/-! ## Weight analysis: claims -/

/-- C1: for every population size n, every maxRowLength, every rowLength array
of length n with all entries <= maxRowLength and every weight buffer of length
n * maxRowLength, the stream written by the extractor loop is the
concatenation, for i = 0 .. n-1 in increasing order, of the rowLength[i]
buffer entries at positions i * maxRowLength + j, j < rowLength[i]: its length
is the sum of the row lengths, and entry j of row i (a position inside the
buffer) stands in the stream after the entries of rows 0 .. i-1. -/
theorem C1_snapshot_extraction {α : Type} (n maxRowLength : ℕ) (rowLength : List ℕ)
    (gEE : List α) (hlen : rowLength.length = n)
    (hmax : ∀ k ∈ rowLength, k ≤ maxRowLength) (hbuf : gEE.length = n * maxRowLength) :
    weightsLoop n maxRowLength rowLength gEE
        = some (snapshotSpec n maxRowLength rowLength gEE) ∧
    (snapshotSpec n maxRowLength rowLength gEE).length = rowLength.sum ∧
    ∀ i j : ℕ, i < n → j < rowLength.getD i 0 →
      i * maxRowLength + j < gEE.length ∧
      (snapshotSpec n maxRowLength rowLength gEE)[(rowLength.take i).sum + j]?
        = gEE[i * maxRowLength + j]? := by
  have hin : ∀ i, i < n → i * maxRowLength + rowLength.getD i 0 ≤ gEE.length := by
    intro i hi
    rw [hbuf]
    exact rows_in_bounds n maxRowLength rowLength hmax i hi
  have hL := map_length_rowEntries n maxRowLength rowLength gEE hlen hin
  refine ⟨weightsLoop_eq_spec maxRowLength rowLength gEE n hlen.ge hin, ?_, ?_⟩
  · rw [snapshotSpec_eq_flatten, List.length_flatten, hL]
  · intro i j hi hj
    refine ⟨by have := hin i hi; omega, ?_⟩
    have hrow : ((List.range n).map (rowEntries maxRowLength rowLength gEE))[i]?
        = some (rowEntries maxRowLength rowLength gEE i) := by
      rw [List.getElem?_map, List.getElem?_range hi]
      rfl
    have hjl : j < (rowEntries maxRowLength rowLength gEE i).length := by
      rw [rowEntries_length maxRowLength rowLength gEE i (hin i hi)]
      exact hj
    have := flatten_getElem? _ i j _ hrow hjl
    rw [List.map_take List.length, hL] at this
    rw [snapshotSpec_eq_flatten, this]
    exact rowEntries_getElem? maxRowLength rowLength gEE i j hj

/-- C1 (witness): n = 4, rowLength = [2,0,3,1], maxRowLength = 4 and the
buffer [a,b,x,x, x,x,x,x, c,d,e,x, f,x,x,x] give the stream [a,b,c,d,e,f]. -/
theorem C1_snapshot_extraction_witness :
    weightsLoop 4 4 [2, 0, 3, 1]
        ['a', 'b', 'x', 'x', 'x', 'x', 'x', 'x', 'c', 'd', 'e', 'x', 'f', 'x', 'x', 'x']
      = some ['a', 'b', 'c', 'd', 'e', 'f'] :=
  (C1_snapshot_extraction 4 4 [2, 0, 3, 1]
      ['a', 'b', 'x', 'x', 'x', 'x', 'x', 'x', 'c', 'd', 'e', 'x', 'f', 'x', 'x', 'x']
      rfl (by decide) rfl).1.trans rfl

/-- C2: for every n, maxRowLength, rowLength with all entries <= maxRowLength
and weight buffer of length n * maxRowLength, the extractor returns a stream
whose split into consecutive chunks of sizes rowLength[0], ..., rowLength[n-1]
has n chunks, chunk i holding exactly the rowLength[i] real entries
buffer[i * maxRowLength + j], j < rowLength[i]; and every buffer of the same
length that agrees on all real positions gives the same stream. -/
theorem C2_snapshot_round_trip {α : Type} (n maxRowLength : ℕ) (rowLength : List ℕ)
    (gEE : List α) (hlen : rowLength.length = n)
    (hmax : ∀ k ∈ rowLength, k ≤ maxRowLength) (hbuf : gEE.length = n * maxRowLength) :
    ∃ file : List α,
      weightsLoop n maxRowLength rowLength gEE = some file ∧
      splitChunks rowLength file = (List.range n).map (rowEntries maxRowLength rowLength gEE) ∧
      (splitChunks rowLength file).length = n ∧
      (∀ i : ℕ, i < n → ∃ chunk : List α,
        (splitChunks rowLength file)[i]? = some chunk ∧
        chunk.length = rowLength.getD i 0 ∧
        ∀ j : ℕ, j < rowLength.getD i 0 → chunk[j]? = gEE[i * maxRowLength + j]?) ∧
      (∀ gEE' : List α, gEE'.length = n * maxRowLength →
        (∀ i j : ℕ, i < n → j < rowLength.getD i 0 →
          gEE'[i * maxRowLength + j]? = gEE[i * maxRowLength + j]?) →
        weightsLoop n maxRowLength rowLength gEE' = some file) := by
  have hin : ∀ i, i < n → i * maxRowLength + rowLength.getD i 0 ≤ gEE.length := by
    intro i hi
    rw [hbuf]
    exact rows_in_bounds n maxRowLength rowLength hmax i hi
  have hL := map_length_rowEntries n maxRowLength rowLength gEE hlen hin
  have hsplit : splitChunks rowLength (snapshotSpec n maxRowLength rowLength gEE)
      = (List.range n).map (rowEntries maxRowLength rowLength gEE) := by
    rw [snapshotSpec_eq_flatten]
    nth_rewrite 1 [← hL]
    exact splitChunks_flatten _
  refine ⟨snapshotSpec n maxRowLength rowLength gEE,
    weightsLoop_eq_spec maxRowLength rowLength gEE n hlen.ge hin, hsplit, ?_, ?_, ?_⟩
  · rw [hsplit]; simp
  · intro i hi
    refine ⟨rowEntries maxRowLength rowLength gEE i, ?_,
      rowEntries_length maxRowLength rowLength gEE i (hin i hi),
      fun j hj => rowEntries_getElem? maxRowLength rowLength gEE i j hj⟩
    rw [hsplit, List.getElem?_map, List.getElem?_range hi]
    rfl
  · intro gEE' hbuf' hagree
    have hin' : ∀ i, i < n → i * maxRowLength + rowLength.getD i 0 ≤ gEE'.length := by
      intro i hi
      rw [hbuf']
      exact rows_in_bounds n maxRowLength rowLength hmax i hi
    rw [weightsLoop_eq_spec maxRowLength rowLength gEE' n hlen.ge hin',
      snapshotSpec_congr n maxRowLength rowLength gEE gEE' hagree]

/-- C2 (witness): the scenario buffer with padding x and the same buffer with
padding y; the stream splits back into the rows [a,b], [], [c,d,e], [f]. -/
theorem C2_snapshot_round_trip_witness :
    ∃ file : List Char,
      weightsLoop 4 4 [2, 0, 3, 1]
        ['a', 'b', 'x', 'x', 'x', 'x', 'x', 'x', 'c', 'd', 'e', 'x', 'f', 'x', 'x', 'x']
        = some file ∧
      splitChunks [2, 0, 3, 1] file = [['a', 'b'], [], ['c', 'd', 'e'], ['f']] ∧
      weightsLoop 4 4 [2, 0, 3, 1]
        ['a', 'b', 'y', 'y', 'y', 'y', 'y', 'y', 'c', 'd', 'e', 'y', 'f', 'y', 'y', 'y']
        = some file := by
  obtain ⟨file, h1, h2, _, _, h5⟩ := C2_snapshot_round_trip 4 4 [2, 0, 3, 1]
    ['a', 'b', 'x', 'x', 'x', 'x', 'x', 'x', 'c', 'd', 'e', 'x', 'f', 'x', 'x', 'x']
    rfl (by decide) rfl
  refine ⟨file, h1, h2.trans rfl, h5 _ rfl ?_⟩
  intro i j hi hj
  have hi' : i = 0 ∨ i = 1 ∨ i = 2 ∨ i = 3 := by omega
  rcases hi' with rfl | rfl | rfl | rfl
  · have hj' : j = 0 ∨ j = 1 := by simp at hj; omega
    rcases hj' with rfl | rfl <;> rfl
  · simp at hj
  · have hj' : j = 0 ∨ j = 1 ∨ j = 2 := by simp at hj; omega
    rcases hj' with rfl | rfl | rfl <;> rfl
  · have hj' : j = 0 := by simp at hj; omega
    subst hj'
    rfl

/-- C9: running the weight analysis block a second time on the memory the
first run left (same device weights and device row lengths, no step between)
gives the same file; the file is a function of the device weight array and the
device row-length array (with the fixed population size and maxRowLength),
because the row lengths are copied from the device before the loop uses them:
replacing the host weights and the host row-length values by any others (an
array of the same length) does not change the file. -/
theorem C9_extractor_idempotent {α : Type} (n : ℕ) (m : WeightMemory α) :
    (match weightAnalysis n m with
      | some (m', file) => weightAnalysis n m' = some (m', file)
      | none => True) ∧
    ((weightAnalysis n m).map Prod.snd =
      if n ≤ m.d_rowLengthEE.length ∧ n ≤ m.rowLength.length then
        weightsLoop n m.maxRowLength m.d_rowLengthEE m.d_gEE
      else none) ∧
    (∀ (hostWeights : List α) (hostRowLength : List ℕ),
      hostRowLength.length = m.rowLength.length →
      (weightAnalysis n { m with gEE := hostWeights, rowLength := hostRowLength }).map Prod.snd
        = (weightAnalysis n m).map Prod.snd) := by
  refine ⟨?_, weightAnalysis_file n m, ?_⟩
  · cases h : weightAnalysis n m with
    | none => trivial
    | some r =>
      obtain ⟨m', file⟩ := r
      exact weightAnalysis_again n m m' file h
  · intro hostWeights hostRowLength hl
    rw [weightAnalysis_file, weightAnalysis_file]
    simp only [hl]

/-- C10: for every n, maxRowLength and rowLength of length n with all entries
<= maxRowLength, the positions the extractor loop reads are exactly the
i * maxRowLength + j with i < n, j < rowLength[i]; each is < n * maxRowLength,
none is read twice, and different (i, j) pairs give different positions.
Without the bound on the row lengths this fails: with n = 2, maxRowLength = 2,
rowLength = [3,1] the chunk of row 0 contains the first entry of row 1, and
with rowLength = [1,3] the chunk of the last row passes the end of the buffer. -/
theorem C10_reads_in_bounds_disjoint (n maxRowLength : ℕ) (rowLength : List ℕ)
    (hlen : rowLength.length = n) (hmax : ∀ k ∈ rowLength, k ≤ maxRowLength) :
    (∀ (α : Type) (gEE : List α),
      weightsLoop n maxRowLength rowLength gEE
        = readScalars gEE (snapshotIndices n maxRowLength rowLength)) ∧
    (∀ p : ℕ, p ∈ snapshotIndices n maxRowLength rowLength ↔
      ∃ i j, i < n ∧ j < rowLength.getD i 0 ∧ p = i * maxRowLength + j) ∧
    (∀ p ∈ snapshotIndices n maxRowLength rowLength, p < n * maxRowLength) ∧
    (snapshotIndices n maxRowLength rowLength).Nodup ∧
    (∀ i j i' j' : ℕ, i < n → j < rowLength.getD i 0 → i' < n → j' < rowLength.getD i' 0 →
      i * maxRowLength + j = i' * maxRowLength + j' → i = i' ∧ j = j') ∧
    ((1 * 2 + 0) ∈ rowIndices 2 [3, 1] 0 ∧
      ¬ (snapshotIndices 2 2 [3, 1]).Nodup ∧
      weightsLoop 2 2 [3, 1] ['a', 'b', 'c', 'd'] = some ['a', 'b', 'c', 'c']) ∧
    ((1 * 2 + 2) ∈ rowIndices 2 [1, 3] 1 ∧
      ¬ (1 * 2 + 2 < 2 * 2) ∧
      weightsLoop 2 2 [1, 3] ['a', 'b', 'c', 'd'] = none) := by
  refine ⟨?_, mem_snapshotIndices n maxRowLength rowLength, ?_,
    snapshotIndices_nodup n maxRowLength rowLength hmax, ?_, ?_, ?_⟩
  · intro α gEE
    exact weightsLoop_eq_readScalars maxRowLength rowLength gEE n hlen.ge
  · intro p hp
    obtain ⟨i, j, hi, hj, rfl⟩ := (mem_snapshotIndices n maxRowLength rowLength p).mp hp
    have := rows_in_bounds n maxRowLength rowLength hmax i hi
    omega
  · intro i j i' j' _ hj _ hj' h
    exact row_index_inj maxRowLength rowLength hmax i j i' j' hj hj' h
  · refine ⟨by decide, by decide, rfl⟩
  · refine ⟨by decide, by decide, rfl⟩

/-- C10 (witness): the scenario n = 4, rowLength = [2,0,3,1], maxRowLength = 4:
the positions read are 0, 1, 8, 9, 10, 12. -/
theorem C10_reads_in_bounds_disjoint_witness :
    snapshotIndices 4 4 [2, 0, 3, 1] = [0, 1, 8, 9, 10, 12] ∧
    (∀ p ∈ snapshotIndices 4 4 [2, 0, 3, 1], p < 4 * 4) ∧
    (snapshotIndices 4 4 [2, 0, 3, 1]).Nodup :=
  ⟨rfl,
    (C10_reads_in_bounds_disjoint 4 4 [2, 0, 3, 1] rfl (by decide)).2.2.1,
    (C10_reads_in_bounds_disjoint 4 4 [2, 0, 3, 1] rfl (by decide)).2.2.2.1⟩

end Mad2007
